import Mathlib

/-!
Verification of the switchlog task-interval reconstruction and aggregation
engine (`src/tasks.py` and `src/slack.py`).

Timestamps are modelled as natural numbers: offsets from the minimal
representable datetime, so the `datetime(MINYEAR, 1, 1)` sentinel is `0`.
Durations (`datetime` differences, i.e. `timedelta` values) are integers.
Fallible operations (Python `IndexError` on `[0]` / `[-1]` indexing) are
modelled with `Option`.
-/

namespace Switchlog

/-- Model of `slack.SlackMessage`: the comparison operators compare
`timestamp` only. -/
structure SlackMessage where
  user : String
  type : String
  timestamp : Nat
  text : String
deriving DecidableEq

/-- Model of `tasks.Task`. -/
structure Task where
  start : Nat
  «end» : Nat
  tags : List String
deriving DecidableEq

/-- The `Task.duration` property: `end - start`, as a signed duration. -/
def Task.duration (t : Task) : Int := (t.«end» : Int) - (t.start : Int)

/-- The order used by `SlackMessage.__lt__` / `__le__`: by `timestamp`. -/
def msgLe (a b : SlackMessage) : Prop := a.timestamp ≤ b.timestamp

instance : DecidableRel msgLe := fun a b => Nat.decLe a.timestamp b.timestamp

instance : IsTotal SlackMessage msgLe := ⟨fun a b => Nat.le_total a.timestamp b.timestamp⟩

instance : IsTrans SlackMessage msgLe := ⟨fun _ _ _ => Nat.le_trans⟩

/-- `slack_messages.sort()`: Python `list.sort` is a stable ascending sort by
`__lt__`, i.e. by `timestamp`; modelled as the stable insertion sort. -/
def sortMessages (msgs : List SlackMessage) : List SlackMessage :=
  msgs.insertionSort msgLe

/-- One attempt of the lazy part `(.*?)\]` of the pattern `\[(.*?)\]`,
starting right after a `[`: consume characters other than `]` and newline
(`.` does not match a newline) until the first `]`; fail on a newline or on
the end of the string. -/
def tryCapture : List Char → Option (List Char)
  | [] => none
  | c :: rest =>
    if c = ']' then some []
    else if c = '\n' then none
    else (tryCapture rest).map (fun g => c :: g)

/-- The leftmost match of `re.findall(r"\[(.*?)\]", s)`, i.e. `matches[0]`:
scan left to right for a `[` whose capture attempt succeeds. -/
def findFirstGroup : List Char → Option (List Char)
  | [] => none
  | c :: rest =>
    if c = '[' then
      match tryCapture rest with
      | some g => some g
      | none => findFirstGroup rest
    else findFirstGroup rest

/-- The whitespace stripped by Python `str.strip()` (the ASCII part). -/
def isPySpace (c : Char) : Bool :=
  c == ' ' || c == '\t' || c == '\n' || c == '\r' || c == '\x0b' || c == '\x0c'

/-- Python `str.strip()`: drop leading and trailing whitespace. -/
def pyStrip (l : List Char) : List Char :=
  ((l.dropWhile isPySpace).reverse.dropWhile isPySpace).reverse

/-- Python `s.split(",")`: split on every comma, keeping empty pieces;
`"".split(",") == [""]`. -/
def splitCommas : List Char → List (List Char)
  | [] => [[]]
  | c :: rest =>
    if c = ',' then [] :: splitCommas rest
    else
      match splitCommas rest with
      | [] => [[c]]
      | g :: gs => (c :: g) :: gs

/-- `tasks.extract_tags_from_string`: the first bracketed group of the text,
split on commas, each piece stripped; `[]` when no group matches. -/
def extract_tags_from_string (s : String) : List String :=
  match findFirstGroup s.data with
  | none => []
  | some g => (splitCommas g).map (fun piece => String.mk (pyStrip piece))

/-- The Task (zero or one) emitted by the loop body of
`convert_slack_messages_to_tasks` for one message, given its interval: a
message whose text yields no tags is skipped. -/
def taskFor (msg : SlackMessage) (curStart curEnd : Nat) : List Task :=
  let tags := extract_tags_from_string msg.text
  if tags.isEmpty then [] else [⟨curStart, curEnd, tags⟩]

/-- The loop of `convert_slack_messages_to_tasks` over the sorted messages:
`curStart` is the window start for index 0 and the message's own timestamp
afterwards; the interval ends at the next message's timestamp, or at the
window end for the last message. -/
def tasksLoop (wEnd : Nat) : List SlackMessage → Nat → List Task
  | [], _ => []
  | [m], curStart => taskFor m curStart wEnd
  | m :: m2 :: rest, curStart =>
    taskFor m curStart m2.timestamp ++ tasksLoop wEnd (m2 :: rest) m2.timestamp

/-- `tasks.convert_slack_messages_to_tasks`: sort the messages in place,
then run the interval loop.  The post-call state of the caller's list is
`sortMessages msgs`. -/
def convert_slack_messages_to_tasks (msgs : List SlackMessage) (start «end» : Nat) : List Task :=
  tasksLoop «end» (sortMessages msgs) start

/-- The per-message partition of the window before tag filtering: the
interval each message of the sorted list would receive, tagged or not. -/
def rawIntervals (wEnd : Nat) : List SlackMessage → Nat → List Task
  | [], _ => []
  | [m], curStart => [⟨curStart, wEnd, extract_tags_from_string m.text⟩]
  | m :: m2 :: rest, curStart =>
    ⟨curStart, m2.timestamp, extract_tags_from_string m.text⟩ ::
      rawIntervals wEnd (m2 :: rest) m2.timestamp

/-- `TaskAnalysis.tag_to_tasks` is modelled as an insertion-ordered
association list (Python dicts preserve insertion order).  `add_entry`
appends the task to an existing tag's bucket, or appends a fresh bucket at
the end. -/
def addEntry (m : List (String × List Task)) (tag : String) (t : Task) :
    List (String × List Task) :=
  match m with
  | [] => [(tag, [t])]
  | (g, ts) :: rest =>
    if g = tag then (g, ts ++ [t]) :: rest else (g, ts) :: addEntry rest tag t

/-- The constructor loop of `TaskAnalysis.__init__`: with `first_tag_only`
it uses `task.tags[0]` (an `IndexError`, modelled `none`, on an empty tag
list); otherwise every tag of the task receives a copy of the task. -/
def buildBuckets : List Task → Bool → List (String × List Task) →
    Option (List (String × List Task))
  | [], _, m => some m
  | t :: ts, firstTagOnly, m =>
    if firstTagOnly then
      match t.tags with
      | [] => none
      | tg :: _ => buildBuckets ts firstTagOnly (addEntry m tg t)
    else
      buildBuckets ts firstTagOnly (t.tags.foldl (fun acc tg => addEntry acc tg t) m)

/-- `TaskAnalysis.__init__` with tasks `tasks` and flag `first_tag_only`:
the resulting `tag_to_tasks` mapping. -/
def mkTagToTasks (tasks : List Task) (firstTagOnly : Bool) :
    Option (List (String × List Task)) :=
  buildBuckets tasks firstTagOnly []

/-- `TagTasks.duration`: the sum of the bucket's task durations. -/
def taskListDuration : List Task → Int
  | [] => 0
  | t :: ts => t.duration + taskListDuration ts

/-- The bucket (task list) mapped to a tag, `[]` when the tag is absent. -/
def bucketTasks (g : String) : List (String × List Task) → List Task
  | [] => []
  | (g', ts) :: rest => if g' = g then ts else bucketTasks g rest

/-- `TaskAnalysis.all_tasks_duration`: the sum of all bucket durations. -/
def allTasksDuration : List (String × List Task) → Int
  | [] => 0
  | (_, ts) :: rest => taskListDuration ts + allTasksDuration rest

/-- The order used by `Task.__lt__` / `__le__`: by `start`. -/
def taskLe (a b : Task) : Prop := a.start ≤ b.start

instance : DecidableRel taskLe := fun a b => Nat.decLe a.start b.start

instance : IsTotal Task taskLe := ⟨fun a b => Nat.le_total a.start b.start⟩

instance : IsTrans Task taskLe := ⟨fun _ _ _ => Nat.le_trans⟩

/-- `TagTasks.first_task`: sort the bucket by `start` (stable) and take the
first element; `IndexError` (`none`) on an empty bucket. -/
def first_task (ts : List Task) : Option Task := (ts.insertionSort taskLe).head?

/-- `TagTasks.last_task`: sort the bucket by `start` and take the last
element. -/
def last_task (ts : List Task) : Option Task := (ts.insertionSort taskLe).getLast?

/-- The fold inside `TaskAnalysis.analysis_duration`: `lo` starts at the
current wall clock (`datetime.now(pytz.utc)`), `hi` at the minimal
representable datetime (`datetime(MINYEAR, 1, 1)`, timestamp `0` in this
model); each bucket lowers `lo` to its first task's start and raises `hi`
to its last task's end. -/
def adLoop : Nat → Nat → List (String × List Task) → Option (Nat × Nat)
  | lo, hi, [] => some (lo, hi)
  | lo, hi, (_, ts) :: rest =>
    match first_task ts, last_task ts with
    | some f, some l => adLoop (min lo f.start) (max hi l.«end») rest
    | _, _ => none

/-- `TaskAnalysis.analysis_duration`, with the wall clock an explicit
parameter `now`: returns `hi - lo` of the fold. -/
def analysis_duration (now : Nat) (m : List (String × List Task)) : Option Int :=
  (adLoop now 0 m).map (fun p => (p.2 : Int) - (p.1 : Int))

/-- The specification's formula for `analysis_duration`:
`max(last_task.end over all buckets) - min(first_task.start over all
buckets)`, defined only when every bucket is non-empty and there is at
least one bucket. -/
def specAnalysisDuration (m : List (String × List Task)) : Option Int :=
  match m.mapM (fun p => first_task p.2), m.mapM (fun p => last_task p.2) with
  | some fs, some ls =>
    match (fs.map (fun t => t.start)).min?, (ls.map (fun t => t.«end»)).max? with
    | some lo, some hi => some ((hi : Int) - (lo : Int))
    | _, _ => none
  | _, _ => none

/-- The duration a tag's bucket accumulates under `AllTags` grouping: each
task counts once per occurrence of the tag in its tag list. -/
def tagMultiplicityDuration (g : String) : List Task → Int
  | [] => 0
  | t :: ts => (t.tags.count g : Int) * t.duration + tagMultiplicityDuration g ts

/-! ### Lemmas about tag extraction -/

/-- Appending text cannot change a successful capture attempt. -/
theorem tryCapture_append :
    ∀ (xs ys g), tryCapture xs = some g → tryCapture (xs ++ ys) = some g
  | [], _, _, h => by simp [tryCapture] at h
  | c :: rest, ys, g, h => by
    show tryCapture (c :: (rest ++ ys)) = some g
    simp only [tryCapture] at h ⊢
    by_cases h1 : c = ']'
    · rw [if_pos h1] at h ⊢
      exact h
    · rw [if_neg h1] at h ⊢
      by_cases h2 : c = '\n'
      · rw [if_pos h2] at h
        exact absurd h (by simp)
      · rw [if_neg h2] at h ⊢
        cases hrest : tryCapture rest with
        | none => rw [hrest] at h; exact absurd h (by simp)
        | some g' =>
          rw [tryCapture_append rest ys g' hrest]
          rw [hrest] at h
          exact h

/-- A successful capture attempt found a closing bracket. -/
theorem mem_of_tryCapture_some :
    ∀ (xs g), tryCapture xs = some g → ']' ∈ xs
  | [], _, h => by simp [tryCapture] at h
  | c :: rest, g, h => by
    simp only [tryCapture] at h
    by_cases h1 : c = ']'
    · simp [h1]
    · rw [if_neg h1] at h
      by_cases h2 : c = '\n'
      · rw [if_pos h2] at h
        exact absurd h (by simp)
      · rw [if_neg h2] at h
        cases hrest : tryCapture rest with
        | none => rw [hrest] at h; exact absurd h (by simp)
        | some g' => exact List.mem_cons_of_mem _ (mem_of_tryCapture_some rest g' hrest)

/-- A failed capture attempt either saw no closing bracket at all, or it hit
a newline first, in which case it keeps failing after appending text. -/
theorem tryCapture_none_append :
    ∀ (xs ys), tryCapture xs = none → ']' ∉ xs ∨ tryCapture (xs ++ ys) = none
  | [], _, _ => Or.inl (by simp)
  | c :: rest, ys, h => by
    simp only [tryCapture] at h
    by_cases h1 : c = ']'
    · rw [if_pos h1] at h
      exact absurd h (by simp)
    · rw [if_neg h1] at h
      by_cases h2 : c = '\n'
      · refine Or.inr ?_
        show tryCapture (c :: (rest ++ ys)) = none
        simp only [tryCapture]
        rw [if_neg h1, if_pos h2]
      · rw [if_neg h2] at h
        have hrest : tryCapture rest = none := by
          cases hr : tryCapture rest with
          | none => rfl
          | some g' => rw [hr] at h; exact absurd h (by simp)
        rcases tryCapture_none_append rest ys hrest with h3 | h3
        · refine Or.inl fun hm => ?_
          rcases List.mem_cons.mp hm with hq | hq
          · exact h1 hq.symm
          · exact h3 hq
        · refine Or.inr ?_
          show tryCapture (c :: (rest ++ ys)) = none
          simp only [tryCapture]
          rw [if_neg h1, if_neg h2, h3]
          rfl

/-- A successful match of the bracket pattern found a closing bracket. -/
theorem mem_of_findFirstGroup_some :
    ∀ (xs g), findFirstGroup xs = some g → ']' ∈ xs
  | [], _, h => by simp [findFirstGroup] at h
  | c :: rest, g, h => by
    simp only [findFirstGroup] at h
    by_cases h1 : c = '['
    · rw [if_pos h1] at h
      cases hc : tryCapture rest with
      | none =>
        rw [hc] at h
        exact List.mem_cons_of_mem _ (mem_of_findFirstGroup_some rest g h)
      | some g' => exact List.mem_cons_of_mem _ (mem_of_tryCapture_some rest g' hc)
    · rw [if_neg h1] at h
      exact List.mem_cons_of_mem _ (mem_of_findFirstGroup_some rest g h)

/-- The leftmost bracketed group is unaffected by any text appended after
the string: later bracket groups are ignored. -/
theorem findFirstGroup_append :
    ∀ (xs ys g), findFirstGroup xs = some g → findFirstGroup (xs ++ ys) = some g
  | [], _, _, h => by simp [findFirstGroup] at h
  | c :: rest, ys, g, h => by
    show findFirstGroup (c :: (rest ++ ys)) = some g
    simp only [findFirstGroup] at h ⊢
    by_cases h1 : c = '['
    · rw [if_pos h1] at h ⊢
      cases hc : tryCapture rest with
      | some g' =>
        rw [hc] at h
        rw [tryCapture_append rest ys g' hc]
        exact h
      | none =>
        rw [hc] at h
        rcases tryCapture_none_append rest ys hc with h2 | h2
        · exact absurd (mem_of_findFirstGroup_some rest g h) h2
        · rw [h2]
          exact findFirstGroup_append rest ys g h
    · rw [if_neg h1] at h ⊢
      exact findFirstGroup_append rest ys g h

/-- Without an opening bracket there is no match. -/
theorem findFirstGroup_none_of_no_bracket :
    ∀ (xs : List Char), '[' ∉ xs → findFirstGroup xs = none
  | [], _ => rfl
  | c :: rest, h => by
    have h1 : ¬c = '[' := fun hc => h (by simp [hc])
    simp only [findFirstGroup, h1, if_false]
    exact findFirstGroup_none_of_no_bracket rest (fun hm => h (List.mem_cons_of_mem _ hm))

/-! ### Lemmas about the interval loop -/

/-- A message with tags yields exactly its interval Task. -/
theorem taskFor_of_tagged {m : SlackMessage} (a b : Nat)
    (h : extract_tags_from_string m.text ≠ []) :
    taskFor m a b = [⟨a, b, extract_tags_from_string m.text⟩] := by
  cases hx : extract_tags_from_string m.text with
  | nil => exact absurd hx h
  | cons c l => simp [taskFor, hx]

/-- A message with no tags yields no Task. -/
theorem taskFor_of_untagged {m : SlackMessage} (a b : Nat)
    (h : extract_tags_from_string m.text = []) : taskFor m a b = [] := by
  simp [taskFor, h]

/-- Everything a Task emitted by the loop body satisfies. -/
theorem mem_taskFor {t : Task} {m : SlackMessage} {a b : Nat} (h : t ∈ taskFor m a b) :
    t.start = a ∧ t.«end» = b ∧ t.tags = extract_tags_from_string m.text ∧ t.tags ≠ [] := by
  cases hx : extract_tags_from_string m.text with
  | nil => rw [taskFor_of_untagged a b hx] at h; simp at h
  | cons c l =>
    rw [taskFor_of_tagged a b (by simp [hx])] at h
    simp at h
    subst h
    simp [hx]

/-- Every Task of the loop lies between the running start and the window
end, provided the remaining messages are sorted, bounded by the window end
and not earlier than the running start. -/
theorem tasksLoop_mem_bounds (wEnd : Nat) :
    ∀ (ms : List SlackMessage), ∀ (curStart : Nat),
      ms.Pairwise msgLe → (∀ m ∈ ms, m.timestamp ≤ wEnd) → curStart ≤ wEnd →
      (∀ m ∈ ms, curStart ≤ m.timestamp) →
      ∀ t ∈ tasksLoop wEnd ms curStart,
        curStart ≤ t.start ∧ t.start ≤ t.«end» ∧ t.«end» ≤ wEnd := by
  intro ms
  induction ms with
  | nil => intro curStart _ _ _ _ t ht; simp [tasksLoop] at ht
  | cons m rest ih =>
    intro curStart hpw hle hcw hcs t ht
    cases rest with
    | nil =>
      obtain ⟨h1, h2, -, -⟩ := mem_taskFor (show t ∈ taskFor m curStart wEnd from ht)
      omega
    | cons m2 rest2 =>
      have hm2 : curStart ≤ m2.timestamp := hcs m2 (by simp)
      have hm2e : m2.timestamp ≤ wEnd := hle m2 (by simp)
      have hpw' : (m2 :: rest2).Pairwise msgLe := (List.pairwise_cons.mp hpw).2
      rcases List.mem_append.mp (show t ∈ taskFor m curStart m2.timestamp ++
          tasksLoop wEnd (m2 :: rest2) m2.timestamp from ht) with hmem | hmem
      · obtain ⟨h1, h2, -, -⟩ := mem_taskFor hmem
        omega
      · have hcs' : ∀ x ∈ m2 :: rest2, m2.timestamp ≤ x.timestamp := by
          intro x hx
          rcases List.mem_cons.mp hx with rfl | hx
          · exact Nat.le_refl _
          · exact (List.pairwise_cons.mp hpw').1 x hx
        have hrec := ih m2.timestamp hpw'
          (fun x hx => hle x (List.mem_cons_of_mem _ hx)) hm2e hcs' t hmem
        exact ⟨Nat.le_trans hm2 hrec.1, hrec.2⟩

/-- The start of every Task of the loop is the running start or the own
timestamp of one of the remaining messages. -/
theorem tasksLoop_start_src (wEnd : Nat) :
    ∀ (ms : List SlackMessage) (curStart : Nat), ∀ t ∈ tasksLoop wEnd ms curStart,
      t.start = curStart ∨ ∃ m ∈ ms, t.start = m.timestamp := by
  intro ms
  induction ms with
  | nil => intro curStart t ht; simp [tasksLoop] at ht
  | cons m rest ih =>
    intro curStart t ht
    cases rest with
    | nil =>
      exact Or.inl (mem_taskFor (show t ∈ taskFor m curStart wEnd from ht)).1
    | cons m2 rest2 =>
      rcases List.mem_append.mp (show t ∈ taskFor m curStart m2.timestamp ++
          tasksLoop wEnd (m2 :: rest2) m2.timestamp from ht) with hmem | hmem
      · exact Or.inl (mem_taskFor hmem).1
      · rcases ih m2.timestamp t hmem with h1 | ⟨m', hm', h1⟩
        · exact Or.inr ⟨m2, by simp, h1⟩
        · exact Or.inr ⟨m', List.mem_cons_of_mem _ hm', h1⟩

/-- The head of the raw partition starts at the running start. -/
theorem rawIntervals_head_start (wEnd : Nat) :
    ∀ (ms : List SlackMessage) (curStart : Nat) (t : Task),
      (rawIntervals wEnd ms curStart).head? = some t → t.start = curStart := by
  intro ms curStart t h
  cases ms with
  | nil => simp [rawIntervals] at h
  | cons m rest =>
    cases rest with
    | nil =>
      simp only [rawIntervals, List.head?_cons, Option.some.injEq] at h
      rw [← h]
    | cons m2 rest2 =>
      simp only [rawIntervals, List.head?_cons, Option.some.injEq] at h
      rw [← h]

/-- In the raw partition each interval ends exactly where the next one
starts. -/
theorem rawIntervals_chain (wEnd : Nat) :
    ∀ (ms : List SlackMessage) (curStart : Nat),
      List.Chain' (fun a b => a.«end» = b.start) (rawIntervals wEnd ms curStart) := by
  intro ms
  induction ms with
  | nil => intro curStart; simp [rawIntervals]
  | cons m rest ih =>
    intro curStart
    cases rest with
    | nil => simp [rawIntervals]
    | cons m2 rest2 =>
      rw [rawIntervals]
      refine List.chain'_cons'.mpr ⟨?_, ih m2.timestamp⟩
      intro y hy
      exact (rawIntervals_head_start wEnd (m2 :: rest2) m2.timestamp y hy).symm

/-- The kept Task sequence is exactly the raw partition with the untagged
intervals dropped. -/
theorem tasksLoop_eq_filter (wEnd : Nat) :
    ∀ (ms : List SlackMessage) (curStart : Nat),
      tasksLoop wEnd ms curStart
        = (rawIntervals wEnd ms curStart).filter (fun t => !t.tags.isEmpty) := by
  intro ms
  induction ms with
  | nil => intro curStart; simp [tasksLoop, rawIntervals]
  | cons m rest ih =>
    intro curStart
    cases rest with
    | nil =>
      cases hx : extract_tags_from_string m.text with
      | nil => simp [tasksLoop, rawIntervals, taskFor, hx]
      | cons c l => simp [tasksLoop, rawIntervals, taskFor, hx]
    | cons m2 rest2 =>
      cases hx : extract_tags_from_string m.text with
      | nil => simp [tasksLoop, rawIntervals, taskFor, hx, ih m2.timestamp]
      | cons c l => simp [tasksLoop, rawIntervals, taskFor, hx, ih m2.timestamp]

/-- Adjacent kept Tasks do not overlap: each ends no later than the next
starts (under the same hypotheses as the bounds lemma). -/
theorem tasksLoop_chain (wEnd : Nat) :
    ∀ (ms : List SlackMessage), ∀ (curStart : Nat),
      ms.Pairwise msgLe → (∀ m ∈ ms, m.timestamp ≤ wEnd) → curStart ≤ wEnd →
      (∀ m ∈ ms, curStart ≤ m.timestamp) →
      List.Chain' (fun a b => a.«end» ≤ b.start) (tasksLoop wEnd ms curStart) := by
  intro ms
  induction ms with
  | nil => intro curStart _ _ _ _; simp [tasksLoop]
  | cons m rest ih =>
    intro curStart hpw hle hcw hcs
    cases rest with
    | nil =>
      cases hx : extract_tags_from_string m.text with
      | nil => simp [tasksLoop, taskFor, hx]
      | cons c l => simp [tasksLoop, taskFor, hx]
    | cons m2 rest2 =>
      have hm2e : m2.timestamp ≤ wEnd := hle m2 (by simp)
      have hpw' : (m2 :: rest2).Pairwise msgLe := (List.pairwise_cons.mp hpw).2
      have hle' : ∀ x ∈ m2 :: rest2, x.timestamp ≤ wEnd :=
        fun x hx => hle x (List.mem_cons_of_mem _ hx)
      have hcs' : ∀ x ∈ m2 :: rest2, m2.timestamp ≤ x.timestamp := by
        intro x hx
        rcases List.mem_cons.mp hx with rfl | hx
        · exact Nat.le_refl _
        · exact (List.pairwise_cons.mp hpw').1 x hx
      have hrec := ih m2.timestamp hpw' hle' hm2e hcs'
      cases hx : extract_tags_from_string m.text with
      | nil => simpa [tasksLoop, taskFor, hx] using hrec
      | cons c l =>
        have : tasksLoop wEnd (m :: m2 :: rest2) curStart
            = ⟨curStart, m2.timestamp, extract_tags_from_string m.text⟩ ::
              tasksLoop wEnd (m2 :: rest2) m2.timestamp := by
          rw [tasksLoop, taskFor_of_tagged curStart m2.timestamp (by simp [hx])]
          rfl
        rw [this]
        refine List.chain'_cons'.mpr ⟨?_, hrec⟩
        intro y hy
        have hmem : y ∈ tasksLoop wEnd (m2 :: rest2) m2.timestamp :=
          List.mem_of_mem_head? hy
        exact (tasksLoop_mem_bounds wEnd (m2 :: rest2) m2.timestamp
          hpw' hle' hm2e hcs' y hmem).1

/-- Consecutive non-overlap plus positive spans give chronological order of
the starts. -/
theorem chain_start_le (l : List Task)
    (h : List.Chain' (fun a b => a.«end» ≤ b.start) l)
    (hb : ∀ t ∈ l, t.start ≤ t.«end») :
    List.Chain' (fun a b => a.start ≤ b.start) l := by
  induction l with
  | nil => simp
  | cons a rest ih =>
    obtain ⟨h1, h2⟩ := List.chain'_cons'.mp h
    refine List.chain'_cons'.mpr ⟨?_, ih h2 (fun t ht => hb t (List.mem_cons_of_mem _ ht))⟩
    intro y hy
    exact Nat.le_trans (hb a (by simp)) (h1 y hy)

/-! ### Lemmas about bucket construction -/

theorem taskListDuration_append :
    ∀ (l₁ l₂ : List Task),
      taskListDuration (l₁ ++ l₂) = taskListDuration l₁ + taskListDuration l₂ := by
  intro l₁ l₂
  induction l₁ with
  | nil => simp [taskListDuration]
  | cons t l ih =>
    show t.duration + taskListDuration (l ++ l₂)
        = t.duration + taskListDuration l + taskListDuration l₂
    rw [ih]
    ring

/-- `add_entry` grows the total duration of the mapping by exactly the
added task's duration. -/
theorem allTasksDuration_addEntry :
    ∀ (m : List (String × List Task)) (tag : String) (t : Task),
      allTasksDuration (addEntry m tag t) = allTasksDuration m + t.duration := by
  intro m tag t
  induction m with
  | nil => simp [addEntry, allTasksDuration, taskListDuration]
  | cons p rest ih =>
    obtain ⟨g, ts⟩ := p
    by_cases hg : g = tag
    · simp only [addEntry, if_pos hg, allTasksDuration, taskListDuration_append,
        taskListDuration]
      ring
    · simp only [addEntry, if_neg hg, allTasksDuration, ih]
      ring

/-- `add_entry` appends the task to the named tag's bucket and leaves every
other bucket unchanged. -/
theorem bucketTasks_addEntry :
    ∀ (m : List (String × List Task)) (tag : String) (t : Task) (g : String),
      bucketTasks g (addEntry m tag t)
        = if tag = g then bucketTasks g m ++ [t] else bucketTasks g m := by
  intro m tag t g
  induction m with
  | nil =>
    by_cases h : tag = g <;> simp [addEntry, bucketTasks, h]
  | cons p rest ih =>
    obtain ⟨g', ts⟩ := p
    by_cases h1 : g' = tag
    · subst h1
      by_cases h2 : g' = g
      · simp [addEntry, bucketTasks, h2]
      · simp [addEntry, bucketTasks, h2]
    · by_cases h2 : g' = g
      · have hng : ¬tag = g := fun hh => h1 (h2.trans hh.symm)
        have hng2 : ¬g = tag := fun hh => hng hh.symm
        simp [addEntry, bucketTasks, h1, h2, hng, hng2]
      · simp [addEntry, bucketTasks, h1, h2, ih]

/-- Folding `add_entry` over a task's tag list (the `AllTags` branch)
appends one copy of the task per occurrence of each tag. -/
theorem bucketTasks_foldTags :
    ∀ (tags : List String) (m : List (String × List Task)) (t : Task) (g : String),
      bucketTasks g (tags.foldl (fun acc tg => addEntry acc tg t) m)
        = bucketTasks g m ++ List.replicate (tags.count g) t := by
  intro tags
  induction tags with
  | nil => intro m t g; simp
  | cons tg rest ih =>
    intro m t g
    simp only [List.foldl_cons]
    rw [ih, bucketTasks_addEntry]
    by_cases h : tg = g
    · simp [h, List.count_cons, List.replicate_succ, List.append_assoc]
    · simp [h, List.count_cons]

theorem taskListDuration_replicate :
    ∀ (n : Nat) (t : Task),
      taskListDuration (List.replicate n t) = (n : Int) * t.duration := by
  intro n t
  induction n with
  | zero => simp [taskListDuration]
  | succ k ih =>
    simp only [List.replicate_succ, taskListDuration, ih]
    push_cast
    ring

/-- The `FirstTagOnly` constructor succeeds on tasks with non-empty tag
lists and adds every task's duration once. -/
theorem buildBuckets_true_some :
    ∀ (tasks : List Task) (m : List (String × List Task)),
      (∀ t ∈ tasks, t.tags ≠ []) →
      ∃ r, buildBuckets tasks true m = some r ∧
        allTasksDuration r = allTasksDuration m + taskListDuration tasks := by
  intro tasks
  induction tasks with
  | nil => intro m _; exact ⟨m, rfl, by simp [taskListDuration]⟩
  | cons t ts ih =>
    intro m hne
    cases htg : t.tags with
    | nil => exact absurd htg (hne t (by simp))
    | cons tg tl =>
      obtain ⟨r, hr, hd⟩ := ih (addEntry m tg t) (fun x hx => hne x (by simp [hx]))
      refine ⟨r, ?_, ?_⟩
      · rw [buildBuckets, if_pos rfl, htg]
        exact hr
      · rw [hd, allTasksDuration_addEntry]
        simp only [taskListDuration]
        ring

/-- The `AllTags` constructor always succeeds and gives every tag's bucket
a duration counted with multiplicity. -/
theorem buildBuckets_false_some :
    ∀ (tasks : List Task) (m : List (String × List Task)),
      ∃ r, buildBuckets tasks false m = some r ∧
        ∀ g, taskListDuration (bucketTasks g r)
          = taskListDuration (bucketTasks g m) + tagMultiplicityDuration g tasks := by
  intro tasks
  induction tasks with
  | nil => intro m; exact ⟨m, rfl, fun g => by simp [tagMultiplicityDuration]⟩
  | cons t ts ih =>
    intro m
    obtain ⟨r, hr, hd⟩ := ih (t.tags.foldl (fun acc tg => addEntry acc tg t) m)
    refine ⟨r, ?_, fun g => ?_⟩
    · rw [buildBuckets]
      simpa using hr
    · rw [hd g, bucketTasks_foldTags, taskListDuration_append, taskListDuration_replicate]
      simp only [tagMultiplicityDuration]
      ring

/-- Every Task the interval builder emits carries at least one tag. -/
theorem tasksLoop_tags_ne_nil (wEnd : Nat) :
    ∀ (ms : List SlackMessage) (curStart : Nat), ∀ t ∈ tasksLoop wEnd ms curStart,
      t.tags ≠ [] := by
  intro ms
  induction ms with
  | nil => intro curStart t ht; simp [tasksLoop] at ht
  | cons m rest ih =>
    intro curStart t ht
    cases rest with
    | nil => exact (mem_taskFor (show t ∈ taskFor m curStart wEnd from ht)).2.2.2
    | cons m2 rest2 =>
      rcases List.mem_append.mp (show t ∈ taskFor m curStart m2.timestamp ++
          tasksLoop wEnd (m2 :: rest2) m2.timestamp from ht) with hmem | hmem
      · exact (mem_taskFor hmem).2.2.2
      · exact ih m2.timestamp t hmem

/-! ### Claim theorems -/

/-- C1 (amended): for messages whose timestamps lie in the window `[s, e]`
with `s ≤ e`, the kept Task sequence is the raw per-event partition with
untagged intervals dropped; the raw partition is exactly contiguous (so
adjacent kept Tasks touch whenever no untagged event was dropped between
them); the kept sequence is chronologically ordered, adjacent kept Tasks
satisfy `end ≤ start`, and every kept Task's interval lies within the
window.  (The claim's "equality exactly when no drop" direction is false:
see the counterexample.) -/
theorem c1_partition (msgs : List SlackMessage) (s e : Nat) (hse : s ≤ e)
    (hin : ∀ m ∈ msgs, s ≤ m.timestamp ∧ m.timestamp ≤ e) :
    convert_slack_messages_to_tasks msgs s e
        = (rawIntervals e (sortMessages msgs) s).filter (fun t => !t.tags.isEmpty)
      ∧ List.Chain' (fun a b => a.«end» = b.start) (rawIntervals e (sortMessages msgs) s)
      ∧ List.Chain' (fun a b => a.«end» ≤ b.start) (convert_slack_messages_to_tasks msgs s e)
      ∧ List.Chain' (fun a b => a.start ≤ b.start) (convert_slack_messages_to_tasks msgs s e)
      ∧ ∀ t ∈ convert_slack_messages_to_tasks msgs s e,
          s ≤ t.start ∧ t.start ≤ t.«end» ∧ t.«end» ≤ e := by
  have hperm := List.perm_insertionSort msgLe msgs
  have hpw : (sortMessages msgs).Pairwise msgLe := List.sorted_insertionSort msgLe msgs
  have hle : ∀ m ∈ sortMessages msgs, m.timestamp ≤ e :=
    fun m hm => (hin m (hperm.mem_iff.mp hm)).2
  have hlow : ∀ m ∈ sortMessages msgs, s ≤ m.timestamp :=
    fun m hm => (hin m (hperm.mem_iff.mp hm)).1
  have hbounds := tasksLoop_mem_bounds e (sortMessages msgs) s hpw hle hse hlow
  have hchain := tasksLoop_chain e (sortMessages msgs) s hpw hle hse hlow
  exact ⟨tasksLoop_eq_filter e (sortMessages msgs) s,
    rawIntervals_chain e (sortMessages msgs) s, hchain,
    chain_start_le _ hchain (fun t ht => (hbounds t ht).2.1), hbounds⟩

/-- C1 witness: the partition property at a concrete input. -/
theorem c1_witness :
    convert_slack_messages_to_tasks [⟨"u", "m", 1, "[a]"⟩, ⟨"u", "m", 5, "x"⟩] 0 10
        = (rawIntervals 10 (sortMessages [⟨"u", "m", 1, "[a]"⟩, ⟨"u", "m", 5, "x"⟩]) 0).filter
            (fun t => !t.tags.isEmpty)
      ∧ List.Chain' (fun a b => a.«end» = b.start)
          (rawIntervals 10 (sortMessages [⟨"u", "m", 1, "[a]"⟩, ⟨"u", "m", 5, "x"⟩]) 0)
      ∧ List.Chain' (fun a b => a.«end» ≤ b.start)
          (convert_slack_messages_to_tasks [⟨"u", "m", 1, "[a]"⟩, ⟨"u", "m", 5, "x"⟩] 0 10)
      ∧ List.Chain' (fun a b => a.start ≤ b.start)
          (convert_slack_messages_to_tasks [⟨"u", "m", 1, "[a]"⟩, ⟨"u", "m", 5, "x"⟩] 0 10)
      ∧ ∀ t ∈ convert_slack_messages_to_tasks [⟨"u", "m", 1, "[a]"⟩, ⟨"u", "m", 5, "x"⟩] 0 10,
          0 ≤ t.start ∧ t.start ≤ t.«end» ∧ t.«end» ≤ 10 :=
  c1_partition [⟨"u", "m", 1, "[a]"⟩, ⟨"u", "m", 5, "x"⟩] 0 10 (by decide) (by decide)

/-- C1 counterexample: the events at timestamps 1 ("[a]"), 5 (untagged) and
5 ("[b]") in window `[0, 10]` give adjacent kept Tasks with
`end = start = 5` although an untagged event was dropped between them: the
claim's "equality exactly when no untagged event was dropped" is false. -/
theorem c1_counterexample :
    convert_slack_messages_to_tasks
        [⟨"u", "m", 1, "[a]"⟩, ⟨"u", "m", 5, "untagged"⟩, ⟨"u", "m", 5, "[b]"⟩] 0 10
      = [⟨0, 5, ["a"]⟩, ⟨5, 10, ["b"]⟩]
    ∧ extract_tags_from_string "untagged" = [] := ⟨rfl, rfl⟩

/-- C2: `analysis_duration` does not equal the specified
`max(last_task.end) − min(first_task.start)` on every non-empty bucket
mapping: the code initialises its minimum with the wall clock
(`datetime.now`), so a bucket whose first task starts after `now` yields
`max(end) − now` instead.  Evaluation at the failing input: one bucket
`"a"` with one task `[5, 10)` and clock `now = 0`. -/
theorem c2_now_sentinel_bug :
    analysis_duration 0 [("a", [⟨5, 10, ["a"]⟩])] = some 10
    ∧ specAnalysisDuration [("a", [⟨5, 10, ["a"]⟩])] = some 5
    ∧ (10 : Int) ≠ 5 := ⟨rfl, rfl, by decide⟩

/-- C3 (amended): constructing a TaskAnalysis from an empty Task sequence
succeeds with zero buckets, and `analysis_duration` then proceeds without
any error and returns `minYearSentinel − now = 0 − now` (a negative
duration); no `EmptyAnalysisError` exists in the code. -/
theorem c3_empty_analysis : ∀ (now : Nat),
    mkTagToTasks [] true = some [] ∧ mkTagToTasks [] false = some []
    ∧ analysis_duration now [] = some (0 - (now : Int)) := by
  intro now
  refine ⟨rfl, rfl, ?_⟩
  simp [analysis_duration, adLoop]

/-- C3 counterexample: with zero buckets and clock `now = 100`,
`analysis_duration` returns the value `-100` instead of raising an
`EmptyAnalysisError`: the claimed error path does not exist. -/
theorem c3_counterexample :
    mkTagToTasks [] true = some [] ∧ analysis_duration 100 [] = some (-100) :=
  ⟨rfl, by decide⟩

/-- C4: under FirstTagOnly mode, if every task has a non-empty tag list,
construction succeeds and the sum of all bucket durations equals the sum of
the task durations. -/
theorem c4_conservation (tasks : List Task) (h : ∀ t ∈ tasks, t.tags ≠ []) :
    ∃ r, mkTagToTasks tasks true = some r ∧ allTasksDuration r = taskListDuration tasks := by
  obtain ⟨r, hr, hd⟩ := buildBuckets_true_some tasks [] h
  exact ⟨r, hr, by simpa [allTasksDuration] using hd⟩

/-- C4 witness: conservation at a concrete input. -/
theorem c4_witness :
    ∃ r, mkTagToTasks [⟨0, 5, ["a"]⟩, ⟨5, 10, ["b"]⟩, ⟨10, 12, ["a"]⟩] true = some r
      ∧ allTasksDuration r
        = taskListDuration [⟨0, 5, ["a"]⟩, ⟨5, 10, ["b"]⟩, ⟨10, 12, ["a"]⟩] :=
  c4_conservation [⟨0, 5, ["a"]⟩, ⟨5, 10, ["b"]⟩, ⟨10, 12, ["a"]⟩] (by decide)

/-- C5: under AllTags mode construction always succeeds and every tag's
bucket accumulates each task's full duration once per occurrence of the tag
in the task's tag list; in particular a 60-minute task tagged
`["a", "b"]` gives both bucket `"a"` and bucket `"b"` the full 60. -/
theorem c5_multiplicity :
    (∀ (tasks : List Task) (g : String),
      ∃ r, mkTagToTasks tasks false = some r ∧
        taskListDuration (bucketTasks g r) = tagMultiplicityDuration g tasks)
    ∧ taskListDuration (bucketTasks "a" ((mkTagToTasks [⟨0, 60, ["a", "b"]⟩] false).getD []))
        = 60
    ∧ taskListDuration (bucketTasks "b" ((mkTagToTasks [⟨0, 60, ["a", "b"]⟩] false).getD []))
        = 60 := by
  refine ⟨fun tasks g => ?_, by decide, by decide⟩
  obtain ⟨r, hr, hd⟩ := buildBuckets_false_some tasks []
  exact ⟨r, hr, by simpa [bucketTasks, taskListDuration] using hd g⟩

/-- C6 (amended): if the kept Task sequence is non-empty then either the
first sorted message is tagged and the first kept Task starts verbatim at
the window start, or the first sorted message is untagged and the first
kept Task's start is the own timestamp of one of the later messages (which
may coincide with the window start).  (The claim's "start = s only if
index 0 is tagged" is false: see the counterexample.) -/
theorem c6_window_start_verbatim (msgs : List SlackMessage) (s e : Nat) (t0 : Task)
    (h : (convert_slack_messages_to_tasks msgs s e).head? = some t0) :
    (∃ m0 rest, sortMessages msgs = m0 :: rest ∧
        extract_tags_from_string m0.text ≠ [] ∧ t0.start = s) ∨
    (∃ m0 rest, sortMessages msgs = m0 :: rest ∧
        extract_tags_from_string m0.text = [] ∧ ∃ m' ∈ rest, t0.start = m'.timestamp) := by
  have hconv : convert_slack_messages_to_tasks msgs s e
      = tasksLoop e (sortMessages msgs) s := rfl
  cases hsm : sortMessages msgs with
  | nil =>
    rw [hconv, hsm] at h
    simp [tasksLoop] at h
  | cons m0 rest =>
    rw [hconv, hsm] at h
    by_cases he : extract_tags_from_string m0.text = []
    · right
      refine ⟨m0, rest, rfl, he, ?_⟩
      cases rest with
      | nil =>
        rw [show tasksLoop e [m0] s = taskFor m0 s e from rfl,
          taskFor_of_untagged s e he] at h
        simp at h
      | cons m2 rest2 =>
        rw [show tasksLoop e (m0 :: m2 :: rest2) s
            = taskFor m0 s m2.timestamp ++ tasksLoop e (m2 :: rest2) m2.timestamp from rfl,
          taskFor_of_untagged s m2.timestamp he] at h
        simp only [List.nil_append] at h
        have ht0 : t0 ∈ tasksLoop e (m2 :: rest2) m2.timestamp := List.mem_of_mem_head? h
        rcases tasksLoop_start_src e (m2 :: rest2) m2.timestamp t0 ht0 with h1 | ⟨m', hm', h1⟩
        · exact ⟨m2, by simp, h1⟩
        · exact ⟨m', hm', h1⟩
    · left
      refine ⟨m0, rest, rfl, he, ?_⟩
      cases rest with
      | nil =>
        rw [show tasksLoop e [m0] s = taskFor m0 s e from rfl,
          taskFor_of_tagged s e he] at h
        simp only [List.head?_cons, Option.some.injEq] at h
        rw [← h]
      | cons m2 rest2 =>
        rw [show tasksLoop e (m0 :: m2 :: rest2) s
            = taskFor m0 s m2.timestamp ++ tasksLoop e (m2 :: rest2) m2.timestamp from rfl,
          taskFor_of_tagged s m2.timestamp he] at h
        simp only [List.cons_append, List.head?_cons, Option.some.injEq] at h
        rw [← h]

/-- C6 witness: with a single tagged message the first kept Task starts at
the window start. -/
theorem c6_witness :
    (∃ m0 rest, sortMessages [⟨"u", "m", 3, "[a]"⟩] = m0 :: rest ∧
        extract_tags_from_string m0.text ≠ [] ∧ (Task.mk 0 10 ["a"]).start = 0) ∨
    (∃ m0 rest, sortMessages [⟨"u", "m", 3, "[a]"⟩] = m0 :: rest ∧
        extract_tags_from_string m0.text = [] ∧
        ∃ m' ∈ rest, (Task.mk 0 10 ["a"]).start = m'.timestamp) :=
  c6_window_start_verbatim [⟨"u", "m", 3, "[a]"⟩] 0 10 ⟨0, 10, ["a"]⟩ rfl

/-- C6 counterexample: two messages at timestamp 0 (the window start), the
first untagged and the second tagged: the first kept Task's start equals
the window start although the very first sorted event is not tagged — the
claim's "only if" is false. -/
theorem c6_counterexample :
    convert_slack_messages_to_tasks
        [⟨"u", "m", 0, "no tags"⟩, ⟨"u", "m", 0, "[a]"⟩] 0 10 = [⟨0, 10, ["a"]⟩]
    ∧ sortMessages [⟨"u", "m", 0, "no tags"⟩, ⟨"u", "m", 0, "[a]"⟩]
        = [⟨"u", "m", 0, "no tags"⟩, ⟨"u", "m", 0, "[a]"⟩]
    ∧ extract_tags_from_string "no tags" = [] := ⟨rfl, rfl, rfl⟩

/-- C7 (amended): when every message timestamp lies in the window `[s, e]`
and `s ≤ e`, every constructed Task satisfies `start ≤ end`.  (Zero-length
intervals can be constructed: see the counterexample.) -/
theorem c7_start_le_end (msgs : List SlackMessage) (s e : Nat) (hse : s ≤ e)
    (hin : ∀ m ∈ msgs, s ≤ m.timestamp ∧ m.timestamp ≤ e) :
    ∀ t ∈ convert_slack_messages_to_tasks msgs s e, t.start ≤ t.«end» := by
  have hperm := List.perm_insertionSort msgLe msgs
  have hpw : (sortMessages msgs).Pairwise msgLe := List.sorted_insertionSort msgLe msgs
  exact fun t ht => (tasksLoop_mem_bounds e (sortMessages msgs) s hpw
    (fun m hm => (hin m (hperm.mem_iff.mp hm)).2) hse
    (fun m hm => (hin m (hperm.mem_iff.mp hm)).1) t ht).2.1

/-- C7 witness: `start ≤ end` for a concrete Task kept from a concrete
input. -/
theorem c7_witness : (Task.mk 0 7 ["a"]).start ≤ (Task.mk 0 7 ["a"]).«end» :=
  c7_start_le_end [⟨"u", "m", 3, "[a]"⟩, ⟨"u", "m", 7, "[b]"⟩] 0 10 (by decide) (by decide)
    (Task.mk 0 7 ["a"]) (by decide)

/-- C7 counterexample: two tagged messages sharing timestamp 5 produce the
zero-length Task `[5, 5)` — zero-length intervals are constructed, refuting
the claim. -/
theorem c7_counterexample :
    convert_slack_messages_to_tasks
        [⟨"u", "m", 1, "[a]"⟩, ⟨"u", "m", 5, "[b]"⟩, ⟨"u", "m", 5, "[c]"⟩] 0 10
      = [⟨0, 5, ["a"]⟩, ⟨5, 5, ["b"]⟩, ⟨5, 10, ["c"]⟩]
    ∧ (Task.mk 5 5 ["b"]) ∈ convert_slack_messages_to_tasks
        [⟨"u", "m", 1, "[a]"⟩, ⟨"u", "m", 5, "[b]"⟩, ⟨"u", "m", 5, "[c]"⟩] 0 10
    ∧ (Task.mk 5 5 ["b"]).start = (Task.mk 5 5 ["b"]).«end» := ⟨rfl, by decide, rfl⟩

/-- C8: only the first bracketed group is honored (appending any further
text, including further groups, after a string whose match already
succeeded does not change the result); a text without an opening bracket
yields zero tags; every Task emitted by the interval builder has a
non-empty tag list (so a bracket-free message contributes no Task); and the
first group is split on commas with each tag trimmed. -/
theorem c8_first_group_only :
    (∀ (l₁ l₂ g : List Char), findFirstGroup l₁ = some g →
        extract_tags_from_string (String.mk (l₁ ++ l₂))
          = extract_tags_from_string (String.mk l₁))
    ∧ (∀ s : String, '[' ∉ s.data → extract_tags_from_string s = [])
    ∧ (∀ (msgs : List SlackMessage) (s e : Nat),
        ∀ t ∈ convert_slack_messages_to_tasks msgs s e, t.tags ≠ [])
    ∧ extract_tags_from_string "[ a , b ][c]" = ["a", "b"] := by
  refine ⟨?_, ?_, ?_, by decide⟩
  · intro l₁ l₂ g h
    have h2 := findFirstGroup_append l₁ l₂ g h
    show (match findFirstGroup (l₁ ++ l₂) with
      | none => ([] : List String)
      | some g => (splitCommas g).map (fun piece => String.mk (pyStrip piece)))
      = (match findFirstGroup l₁ with
      | none => ([] : List String)
      | some g => (splitCommas g).map (fun piece => String.mk (pyStrip piece)))
    rw [h, h2]
  · intro s hs
    show (match findFirstGroup s.data with
      | none => ([] : List String)
      | some g => (splitCommas g).map (fun piece => String.mk (pyStrip piece)))
      = []
    rw [findFirstGroup_none_of_no_bracket s.data hs]
  · intro msgs s e t ht
    exact tasksLoop_tags_ne_nil e (sortMessages msgs) s t ht

/-- C8 witness: the first-group and the no-bracket parts at concrete
inputs. -/
theorem c8_witness :
    extract_tags_from_string (String.mk ("x[a]".data ++ "[b]".data))
        = extract_tags_from_string (String.mk "x[a]".data)
    ∧ extract_tags_from_string "hello" = [] :=
  ⟨c8_first_group_only.1 "x[a]".data "[b]".data ['a'] (by decide),
   c8_first_group_only.2.1 "hello" (by decide)⟩

/-- C9: the conversion sorts the caller's message list in place: the
post-call state of the argument is a permutation of the original messages
(no message is changed), ascending by timestamp, and the returned Tasks are
built from this sorted state. -/
theorem c9_inplace_sort (msgs : List SlackMessage) (s e : Nat) :
    (sortMessages msgs).Perm msgs ∧ (sortMessages msgs).Pairwise msgLe
    ∧ convert_slack_messages_to_tasks msgs s e = tasksLoop e (sortMessages msgs) s :=
  ⟨List.perm_insertionSort msgLe msgs, List.sorted_insertionSort msgLe msgs, rfl⟩

/-- C10: an empty bracket group `"[]"` yields the one-element tag list
`[""]`, so the message is kept: it produces a Task tagged `[""]` and, under
FirstTagOnly aggregation, a bucket whose tag name is the empty string. -/
theorem c10_empty_bracket_tag :
    extract_tags_from_string "[]" = [""]
    ∧ convert_slack_messages_to_tasks [⟨"u", "message", 3, "[]"⟩] 0 10 = [⟨0, 10, [""]⟩]
    ∧ mkTagToTasks [⟨0, 10, [""]⟩] true = some [("", [⟨0, 10, [""]⟩])] :=
  ⟨rfl, rfl, rfl⟩

end Switchlog
